import Mathlib

/-!
Verification of the rustwire wire-format library (encoded protobuf utilities).

Buffers (`&[u8]` / `Vec<u8>`) are modelled as `List Nat` whose elements are
byte values; `u64` arithmetic is modelled on `Nat` with explicit reduction
modulo `2 ^ 64` where the Rust code can overflow.  The `while` loops of the
scanning functions are modelled by structural recursion on a fuel parameter;
each public entry point passes `buffer.length + 1` fuel, which is enough
because every loop iteration strictly advances the scan offset and the loop
exits as soon as the offset reaches the end of the buffer (running out of
fuel returns the same value as the normal loop exit).
-/

set_option maxRecDepth 16384

namespace Rustwire

/-- Loop body of `decode_varint` (src/decoders.rs): walk the bytes from
absolute index `i`, accumulating 7-bit groups into `result` with
`result |= ((byte & 0x7F) as u64) << shift`. -/
def decodeVarintAux : List Nat → Nat → Nat → Nat → Option (Nat × Nat)
  | [], _, _, _ => none
  | byte :: rest, i, result, shift =>
    let result' := result ||| (((byte &&& 127) <<< shift) % 2 ^ 64)
    if byte &&& 128 = 0 then
      some (result', i + 1)
    else
      let shift' := shift + 7
      if 64 ≤ shift' then none
      else decodeVarintAux rest (i + 1) result' shift'

/-- Model of `decode_varint` (src/decoders.rs): decode an unsigned base-128 varint
starting at `offset`; returns the value and the offset just past it. -/
def decode_varint (bytes : List Nat) (offset : Nat) : Option (Nat × Nat) :=
  decodeVarintAux (bytes.drop offset) offset 0 0

/-- Model of `decode_float` (src/decoders.rs): bounds-check a 4-byte value. -/
def decode_float (encoded_message : List Nat) (offset : Nat) : Option Nat :=
  if offset + 4 ≤ encoded_message.length then some (offset + 4) else none

/-- Model of `decode_double` (src/decoders.rs): bounds-check an 8-byte value. -/
def decode_double (encoded_message : List Nat) (offset : Nat) : Option Nat :=
  if offset + 8 ≤ encoded_message.length then some (offset + 8) else none

/-- Model of `encode_varint` (src/encoders.rs): emit 7-bit groups, least significant
first, setting the continuation bit on every byte except the last. -/
def encode_varint (value : Nat) : List Nat :=
  if h : value >>> 7 = 0 then [value &&& 127]
  else (value &&& 127 ||| 128) :: encode_varint (value >>> 7)
termination_by value
decreasing_by
  simp only [Nat.shiftRight_eq_div_pow] at *
  have hv : value ≠ 0 := by
    intro h0
    simp [h0] at h
  exact Nat.div_lt_self (Nat.pos_of_ne_zero hv) (by norm_num)

/-- The Rust slice `&msg[a..b]`. -/
def slice (msg : List Nat) (a b : Nat) : List Nat :=
  (msg.drop a).take (b - a)

/-- Model of `handle_varint` (src/lib.rs): offset just past a varint value. -/
def handle_varint (encoded_message : List Nat) (offset : Nat) : Option Nat :=
  (decode_varint encoded_message offset).map (fun p => p.2)

/-- Model of `handle_length_delimited` (src/lib.rs): decode the length varint, check
the value span lies inside the buffer, and return the value slice. -/
def handle_length_delimited (encoded_message : List Nat) (offset : Nat) :
    Option (List Nat) :=
  match decode_varint encoded_message offset with
  | none => none
  | some (length, offset') =>
    if offset' + length > encoded_message.length then none
    else some (slice encoded_message offset' (offset' + length))

/-- Model of `skip_field` (src/lib.rs): offset of the next frame, by wire type. -/
def skip_field (encoded_message : List Nat) (wire_type offset : Nat) :
    Option Nat :=
  match wire_type with
  | 0 => (decode_varint encoded_message offset).map (fun p => p.2)
  | 1 => some (offset + 8)
  | 2 =>
    match decode_varint encoded_message offset with
    | none => none
    | some (length, offset') => some (offset' + length)
  | 5 => some (offset + 4)
  | _ => none

/-- Loop of `extract_field_by_tag` (src/lib.rs), fuel-indexed. -/
def extractLoop (msg : List Nat) (tag_number : Nat) : Nat → Nat → Option (List Nat)
  | 0, _ => none
  | fuel + 1, offset =>
    if offset < msg.length then
      match decode_varint msg offset with
      | none => none
      | some (tag, newOffset) =>
        let field_number := tag >>> 3
        let wire_type := tag &&& 7
        if field_number = tag_number then
          match wire_type with
          | 0 => (decode_varint msg newOffset).map (fun p => slice msg newOffset p.2)
          | 1 => (decode_double msg newOffset).map (fun e => slice msg newOffset e)
          | 2 => handle_length_delimited msg newOffset
          | 5 => (decode_float msg newOffset).map (fun e => slice msg newOffset e)
          | _ => none
        else
          match skip_field msg wire_type newOffset with
          | none => none
          | some next => extractLoop msg tag_number fuel next
    else none

/-- Model of `extract_field_by_tag` (src/lib.rs). -/
def extract_field_by_tag (encoded_message : List Nat) (tag_number : Nat) :
    Option (List Nat) :=
  extractLoop encoded_message tag_number (encoded_message.length + 1) 0

/-- Loop of `extract_multiple_fields_by_tag` (src/lib.rs), fuel-indexed.
For a matched frame the pair `step` carries the optional value slice and the
updated offset, mirroring the `offset` mutations inside the Rust closures
(note the `offset += value.len() + 1` of the length-delimited arm). -/
def extractMultipleLoop (msg : List Nat) (tag_numbers : List Nat) :
    Nat → Nat → List (Nat × List Nat)
  | 0, _ => []
  | fuel + 1, offset =>
    if offset < msg.length then
      match decode_varint msg offset with
      | none => []
      | some (tag, newOffset) =>
        let field_number := tag >>> 3
        let wire_type := tag &&& 7
        if tag_numbers.contains field_number then
          let step : Option (List Nat) × Nat :=
            match wire_type with
            | 0 =>
              match handle_varint msg newOffset with
              | some e => (some (slice msg newOffset e), e)
              | none => (none, newOffset)
            | 1 =>
              match decode_double msg newOffset with
              | some e => (some (slice msg newOffset e), e)
              | none => (none, newOffset)
            | 2 =>
              match handle_length_delimited msg newOffset with
              | some value => (some value, newOffset + value.length + 1)
              | none => (none, newOffset)
            | 5 =>
              match decode_float msg newOffset with
              | some e => (some (slice msg newOffset e), e)
              | none => (none, newOffset)
            | _ => (none, newOffset)
          match step with
          | (some value, offset') =>
            (field_number, value) :: extractMultipleLoop msg tag_numbers fuel offset'
          | (none, offset') => extractMultipleLoop msg tag_numbers fuel offset'
        else
          match skip_field msg wire_type newOffset with
          | none => []
          | some next => extractMultipleLoop msg tag_numbers fuel next
    else []

/-- Model of `extract_multiple_fields_by_tag` (src/lib.rs). -/
def extract_multiple_fields_by_tag (encoded_message : List Nat)
    (tag_numbers : List Nat) : List (Nat × List Nat) :=
  extractMultipleLoop encoded_message tag_numbers (encoded_message.length + 1) 0

/-- Loop of `replace_field_with` (src/lib.rs), fuel-indexed.  The result is
the pair (returned old value, final buffer contents); the Rust function
mutates `encoded_message` in place, which is modelled by returning the new
contents.  On a field-number match the splice happens unconditionally, with
`step.2` playing the role of the (possibly unadvanced) `offset` variable. -/
def replaceLoop (msg : List Nat) (tag_number : Nat) (replace_with : List Nat) :
    Nat → Nat → Option (List Nat) × List Nat
  | 0, _ => (none, msg)
  | fuel + 1, offset =>
    if offset < msg.length then
      match decode_varint msg offset with
      | none => (none, msg)
      | some (tag, newOffset) =>
        let old_offset := offset
        let field_number := tag >>> 3
        let wire_type := tag &&& 7
        if field_number = tag_number then
          let step : Option (List Nat) × Nat :=
            match wire_type with
            | 0 =>
              match decode_varint msg newOffset with
              | some (_, e) => (some (slice msg newOffset e), e)
              | none => (none, newOffset)
            | 1 =>
              match decode_double msg newOffset with
              | some e => (some (slice msg newOffset e), e)
              | none => (none, newOffset)
            | 2 =>
              match handle_length_delimited msg newOffset with
              | some value => (some value, newOffset + value.length + 1)
              | none => (none, newOffset)
            | 5 =>
              match decode_float msg newOffset with
              | some e => (some (slice msg newOffset e), e)
              | none => (none, newOffset)
            | _ => (none, newOffset)
          (step.1, msg.take old_offset ++ replace_with ++ msg.drop step.2)
        else
          match skip_field msg wire_type newOffset with
          | none => (none, msg)
          | some next => replaceLoop msg tag_number replace_with fuel next
    else (none, msg)

/-- Model of `replace_field_with` (src/lib.rs): returns (old value, new buffer). -/
def replace_field_with (encoded_message : List Nat) (tag_number : Nat)
    (replace_with : List Nat) : Option (List Nat) × List Nat :=
  replaceLoop encoded_message tag_number replace_with
    (encoded_message.length + 1) 0

/-- The inline base-128 encoding loop appearing (twice) in `create_header`
(src/lib.rs). -/
def headerVarintLoop (current : Nat) : List Nat :=
  if current < 128 then [current]
  else (current &&& 127 ||| 128) :: headerVarintLoop (current >>> 7)
termination_by current
decreasing_by
  simp only [Nat.shiftRight_eq_div_pow]
  exact Nat.div_lt_self (by omega) (by norm_num)

/-- Model of `create_header` (src/lib.rs): tag varint, then (for wire type 2) the
length varint of the message.  The `u64` shift and the `as u64` cast of the
length are modelled with explicit reduction mod `2 ^ 64`. -/
def create_header (tag_number variant : Nat) (encoded_message : List Nat) :
    List Nat :=
  let tag_byte := ((tag_number <<< 3) % 2 ^ 64) ||| variant
  headerVarintLoop tag_byte ++
    (if variant = 2 then headerVarintLoop (encoded_message.length % 2 ^ 64)
     else [])

/-- The header synthesizer as the spec describes it (§4.6): encode
`tag = (field_number << 3) | wire_type` as a varint and, for the
length-delimited wire type, append the varint encoding of the value length.
Stated with `encode_varint` to compare against `create_header`. -/
def make_header_spec (field_number wire_type : Nat) (value : List Nat) :
    List Nat :=
  encode_varint (((field_number <<< 3) % 2 ^ 64) ||| wire_type) ++
    (if wire_type = 2 then encode_varint (value.length % 2 ^ 64) else [])

/-- A field frame of the wire format (spec §3): a wire type in
{0, 1, 2, 5} together with the data its value encodes. -/
inductive Frame where
  | varintF (f : Nat) (v : Nat)
  | fixed64F (f : Nat) (bs : List Nat)
  | lenF (f : Nat) (payload : List Nat)
  | fixed32F (f : Nat) (bs : List Nat)

/-- The field number of a frame. -/
def Frame.fieldNum : Frame → Nat
  | .varintF f _ => f
  | .fixed64F f _ => f
  | .lenF f _ => f
  | .fixed32F f _ => f

/-- The wire type of a frame. -/
def Frame.wireType : Frame → Nat
  | .varintF _ _ => 0
  | .fixed64F _ _ => 1
  | .lenF _ _ => 2
  | .fixed32F _ _ => 5

/-- The value bytes of a frame: the varint's own bytes for wire type 0, the
8 raw bytes for wire type 1, the L payload bytes for wire type 2, the 4 raw
bytes for wire type 5. -/
def Frame.valueBytes : Frame → List Nat
  | .varintF _ v => encode_varint v
  | .fixed64F _ bs => bs
  | .lenF _ p => p
  | .fixed32F _ bs => bs

/-- The encoded bytes of a frame: tag varint, then (for wire type 2) the
length varint, then the value bytes. -/
def Frame.bytes (fr : Frame) : List Nat :=
  encode_varint ((fr.fieldNum <<< 3) ||| fr.wireType) ++
    (match fr with
     | .lenF _ p => encode_varint p.length
     | _ => []) ++ fr.valueBytes

/-- Well-formedness of a frame: the tag fits in a `u64` and the value has
the extent its wire type promises. -/
def Frame.WF : Frame → Prop
  | .varintF f v => f < 2 ^ 61 ∧ v < 2 ^ 64
  | .fixed64F f bs => f < 2 ^ 61 ∧ bs.length = 8
  | .lenF f p => f < 2 ^ 61 ∧ p.length < 2 ^ 64
  | .fixed32F f bs => f < 2 ^ 61 ∧ bs.length = 4

/-- A well-formed buffer: the concatenation of the frames' bytes. -/
def messageBytes (frames : List Frame) : List Nat :=
  (frames.map Frame.bytes).flatten

/-! ### Bit-arithmetic toolkit -/

theorem and127_eq_mod (v : Nat) : v &&& 127 = v % 128 := by
  simpa using Nat.and_pow_two_sub_one_eq_mod v 7

theorem and7_eq_mod (v : Nat) : v &&& 7 = v % 8 := by
  simpa using Nat.and_pow_two_sub_one_eq_mod v 3

theorem shiftRight7_eq_div (v : Nat) : v >>> 7 = v / 128 := by
  simpa using Nat.shiftRight_eq_div_pow v 7

theorem shiftRight3_eq_div (v : Nat) : v >>> 3 = v / 8 := by
  simpa using Nat.shiftRight_eq_div_pow v 3

theorem lor_shiftLeft_eq_add {a : Nat} (b s : Nat) (h : a < 2 ^ s) :
    a ||| (b <<< s) = a + 2 ^ s * b := by
  rw [Nat.shiftLeft_eq, Nat.lor_comm, Nat.mul_comm b (2 ^ s),
    ← Nat.mul_add_lt_is_or h b]
  omega

theorem lor128_eq_add {a : Nat} (h : a < 128) : a ||| 128 = a + 128 := by
  have h' : a < 2 ^ 7 := by omega
  have := lor_shiftLeft_eq_add 1 7 h'
  simpa using this

theorem and128_of_lt {v : Nat} (h : v < 128) : v &&& 128 = 0 := by
  apply Nat.eq_of_testBit_eq
  intro i
  rw [show (128 : Nat) = 2 ^ 7 by norm_num, Nat.testBit_and,
    Nat.testBit_two_pow]
  by_cases hi : (7 : Nat) = i
  · subst hi
    simp [Nat.testBit_lt_two_pow (show v < 2 ^ 7 by omega)]
  · simp [hi]

theorem add128_and128 {r : Nat} (h : r < 128) : (r + 128) &&& 128 = 128 := by
  have hb : r + 128 = 2 ^ 7 * 1 + r := by omega
  apply Nat.eq_of_testBit_eq
  intro i
  rw [Nat.testBit_and, hb, Nat.testBit_mul_pow_two_add 1 (show r < 2 ^ 7 by omega)]
  rw [show (128 : Nat) = 2 ^ 7 by norm_num, Nat.testBit_two_pow]
  by_cases hi : i < 7
  · simp [hi, show ¬(7 : Nat) = i by omega]
  · by_cases hi7 : i = 7
    · subst hi7
      simp
    · have hne : i - 7 ≠ 0 := by omega
      simp [hi, hi7, Nat.testBit_lt_two_pow (show (1 : Nat) < 2 ^ (i - 7) from
        Nat.one_lt_two_pow_iff.mpr hne), show ¬(7 : Nat) = i by omega]

/-! ### Varint codec lemmas -/

theorem encode_varint_ne_nil (v : Nat) : encode_varint v ≠ [] := by
  rw [encode_varint]
  by_cases h : v >>> 7 = 0 <;> simp [h]

theorem encode_varint_length_pos (v : Nat) : 0 < (encode_varint v).length :=
  List.length_pos.mpr (encode_varint_ne_nil v)

/-- Decoding the minimal encoding of `v` from the head of the remaining
bytes, with arbitrary trailing bytes, accumulated value `R` below the
current shift, recovers `R + v * 2 ^ s` and consumes the encoding. -/
theorem decodeVarintAux_encode :
    ∀ (v : Nat) (rest : List Nat) (i R s : Nat), s ≤ 63 → R < 2 ^ s →
      v < 2 ^ (64 - s) →
      decodeVarintAux (encode_varint v ++ rest) i R s =
        some (R + v * 2 ^ s, i + (encode_varint v).length) := by
  intro v
  induction v using Nat.strong_induction_on with
  | _ v ih =>
    intro rest i R s hs hR hv
    rw [encode_varint]
    by_cases h7 : v >>> 7 = 0
    · have hvlt : v < 128 := by
        rw [shiftRight7_eq_div] at h7
        omega
      have h127 : v &&& 127 = v := by
        rw [and127_eq_mod]
        omega
      have hpow : v * 2 ^ s < 2 ^ 64 := by
        calc v * 2 ^ s < 2 ^ (64 - s) * 2 ^ s :=
              (Nat.mul_lt_mul_right (Nat.two_pow_pos s)).mpr hv
          _ = 2 ^ 64 := by
              rw [← Nat.pow_add]
              congr 1
              omega
      have hmodeq : v <<< s % 2 ^ 64 = v <<< s := by
        rw [Nat.shiftLeft_eq]
        exact Nat.mod_eq_of_lt hpow
      simp only [h7, dite_true, List.cons_append, decodeVarintAux, h127]
      rw [and128_of_lt hvlt, if_pos rfl, hmodeq, lor_shiftLeft_eq_add v s hR]
      simp [Nat.mul_comm]
    · have hvge : 128 ≤ v := by
        rw [shiftRight7_eq_div] at h7
        rcases Nat.lt_or_ge v 128 with h | h
        · exact absurd (Nat.div_eq_of_lt h) h7
        · exact h
      have hslt : s ≤ 56 := by
        by_contra hgt
        have h64s : 64 - s ≤ 7 := by omega
        have : (2 : Nat) ^ (64 - s) ≤ 2 ^ 7 :=
          Nat.pow_le_pow_right (by norm_num) h64s
        omega
      have hmod : v &&& 127 = v % 128 := and127_eq_mod v
      have hbyte : v &&& 127 ||| 128 = v % 128 + 128 := by
        rw [hmod]
        exact lor128_eq_add (Nat.mod_lt v (by norm_num))
      have hmod2 : (v % 128 + 128) &&& 127 = v % 128 := by
        rw [and127_eq_mod, Nat.add_mod_right]
        exact Nat.mod_mod_of_dvd v (by norm_num)
      have hset : (v % 128 + 128) &&& 128 = 128 :=
        add128_and128 (Nat.mod_lt v (by norm_num))
      have hshift : ¬ 64 ≤ s + 7 := by omega
      have hmlt : v % 128 < 2 ^ 7 := by
        have := Nat.mod_lt v (show 0 < 128 by norm_num)
        omega
      have hRlt : R + 2 ^ s * (v % 128) < 2 ^ (s + 7) := by
        have h1 : 2 ^ s * (v % 128) ≤ 2 ^ s * 127 :=
          Nat.mul_le_mul_left _ (by omega)
        have h2 : 2 ^ (s + 7) = 2 ^ s * 128 := by
          rw [Nat.pow_add]
        omega
      have hmodpow : (v % 128) * 2 ^ s < 2 ^ 64 := by
        have h1 : (v % 128) * 2 ^ s < 2 ^ 7 * 2 ^ s :=
          (Nat.mul_lt_mul_right (Nat.two_pow_pos s)).mpr hmlt
        have h2 : (2 : Nat) ^ 7 * 2 ^ s ≤ 2 ^ 64 := by
          rw [← Nat.pow_add]
          exact Nat.pow_le_pow_right (by norm_num) (by omega)
        omega
      have hmodeq : (v % 128) <<< s % 2 ^ 64 = (v % 128) <<< s := by
        rw [Nat.shiftLeft_eq]
        exact Nat.mod_eq_of_lt hmodpow
      have hvnext : v >>> 7 < 2 ^ (64 - (s + 7)) := by
        rw [shiftRight7_eq_div]
        rw [Nat.div_lt_iff_lt_mul (by norm_num : (0 : Nat) < 128)]
        calc v < 2 ^ (64 - s) := hv
          _ = 2 ^ (64 - (s + 7)) * 128 := by
              rw [show (128 : Nat) = 2 ^ 7 by norm_num, ← Nat.pow_add]
              congr 1
              omega
      simp only [h7, dite_false, List.cons_append, decodeVarintAux, hbyte, hmod2]
      rw [hset, if_neg (by norm_num), if_neg hshift, hmodeq,
        lor_shiftLeft_eq_add (v % 128) s hR]
      rw [ih (v >>> 7) (by
            rw [shiftRight7_eq_div]
            exact Nat.div_lt_self (by omega) (by norm_num))
          rest (i + 1) (R + 2 ^ s * (v % 128)) (s + 7) (by omega) hRlt hvnext]
      have hval : R + 2 ^ s * (v % 128) + v >>> 7 * 2 ^ (s + 7) = R + v * 2 ^ s := by
        have hsplit : v = 128 * (v >>> 7) + v % 128 := by
          rw [shiftRight7_eq_div]
          omega
        have hp : (2 : Nat) ^ (s + 7) = 2 ^ s * 128 := by
          rw [Nat.pow_add]
        calc R + 2 ^ s * (v % 128) + v >>> 7 * 2 ^ (s + 7)
            = R + 2 ^ s * (v % 128) + 2 ^ s * (128 * (v >>> 7)) := by
              rw [hp]
              ring
          _ = R + 2 ^ s * (128 * (v >>> 7) + v % 128) := by ring
          _ = R + v * 2 ^ s := by
              rw [← hsplit]
              ring
      rw [hval, List.length_cons]
      congr 2
      omega

/-- Decoding the encoding of `v` (with arbitrary trailing bytes) at the end
of an arbitrary byte list recovers `v` and consumes exactly the encoding. -/
theorem decode_varint_append (pre : List Nat) (n : Nat) (rest : List Nat)
    (hn : n < 2 ^ 64) :
    decode_varint (pre ++ (encode_varint n ++ rest)) pre.length =
      some (n, pre.length + (encode_varint n).length) := by
  unfold decode_varint
  rw [List.drop_left]
  have := decodeVarintAux_encode n rest pre.length 0 0 (by norm_num)
    (by norm_num) (by simpa using hn)
  simpa using this

/-- C6: decoding the encoding of any 64-bit value from offset 0 recovers the
value and consumes exactly the encoded bytes. -/
theorem varint_round_trip (v : Nat) (hv : v < 2 ^ 64) :
    decode_varint (encode_varint v) 0 = some (v, (encode_varint v).length) := by
  have := decode_varint_append [] v [] hv
  simpa using this

theorem varint_round_trip_witness :
    (150 : Nat) < 2 ^ 64 ∧
      decode_varint (encode_varint 150) 0 =
        some (150, (encode_varint 150).length) :=
  ⟨by norm_num, varint_round_trip 150 (by norm_num)⟩

/-- C10: `decode_varint` accepts non-canonical varints: the non-minimal
encoding `[0x80, 0x00]` decodes to 0 and consumes 2 bytes, and a 10-byte
varint whose last byte carries payload above bit 0 is accepted with the bits
beyond bit 63 discarded, yielding `u64::MAX`. -/
theorem decode_varint_non_canonical :
    decode_varint [0x80, 0x00] 0 = some (0, 2) ∧
      decode_varint [0xFF, 0xFF, 0xFF, 0xFF, 0xFF, 0xFF, 0xFF, 0xFF, 0xFF, 0x7F] 0 =
        some (2 ^ 64 - 1, 10) := by
  constructor
  · decide
  · decide

/-- A byte sequence in varint shape: nonempty, every byte before the last
has the high bit set (and is a byte), the last has the high bit clear. -/
def varintShape : List Nat → Prop
  | [] => False
  | [b] => b < 128
  | b :: rest => 128 ≤ b ∧ b < 256 ∧ varintShape rest

theorem varintShape_encode (v : Nat) : varintShape (encode_varint v) := by
  induction v using Nat.strong_induction_on with
  | _ v ih =>
    rw [encode_varint]
    by_cases h7 : v >>> 7 = 0
    · simp only [h7, dite_true]
      show v &&& 127 < 128
      rw [and127_eq_mod]
      exact Nat.mod_lt v (by norm_num)
    · simp only [h7, dite_false]
      have hlt : v >>> 7 < v := by
        rw [shiftRight7_eq_div]
        refine Nat.div_lt_self ?_ (by norm_num)
        rcases Nat.eq_zero_or_pos v with h | h
        · exact absurd (by simp [h]) h7
        · exact h
      have hmlt : v % 128 < 128 := Nat.mod_lt v (by norm_num)
      have hbyte : v &&& 127 ||| 128 = v % 128 + 128 := by
        rw [and127_eq_mod]
        exact lor128_eq_add hmlt
      cases henc : encode_varint (v >>> 7) with
      | nil => exact absurd henc (encode_varint_ne_nil _)
      | cons y ys =>
        show 128 ≤ v &&& 127 ||| 128 ∧ (v &&& 127 ||| 128) < 256 ∧
          varintShape (y :: ys)
        refine ⟨by omega, by omega, ?_⟩
        rw [← henc]
        exact ih (v >>> 7) hlt

/-- The varint decode loop consumes at least one byte on success. -/
theorem decodeVarintAux_lt_index :
    ∀ (l : List Nat) (i R s val j : Nat),
      decodeVarintAux l i R s = some (val, j) → i < j := by
  intro l
  induction l with
  | nil =>
    intro i R s val j h
    simp [decodeVarintAux] at h
  | cons b rest ih =>
    intro i R s val j h
    simp only [decodeVarintAux] at h
    by_cases hb : b &&& 128 = 0
    · rw [if_pos hb] at h
      simp only [Option.some.injEq, Prod.mk.injEq] at h
      omega
    · rw [if_neg hb] at h
      by_cases hsh : 64 ≤ s + 7
      · rw [if_pos hsh] at h
        cases h
      · rw [if_neg hsh] at h
        have := ih (i + 1) _ (s + 7) val j h
        omega

/-- The value returned by the varint decode loop is bounded by the number of
bytes it consumed. -/
theorem decodeVarintAux_lt :
    ∀ (l : List Nat) (i R s val j : Nat), R < 2 ^ s →
      decodeVarintAux l i R s = some (val, j) →
      val < 2 ^ (s + 7 * (j - i)) := by
  intro l
  induction l with
  | nil =>
    intro i R s val j hR h
    simp [decodeVarintAux] at h
  | cons b rest ih =>
    intro i R s val j hR h
    have hblt : b &&& 127 < 128 := by
      rw [and127_eq_mod]
      exact Nat.mod_lt b (by norm_num)
    have hstep : R ||| ((b &&& 127) <<< s % 2 ^ 64) < 2 ^ (s + 7) := by
      apply Nat.or_lt_two_pow
      · calc R < 2 ^ s := hR
          _ ≤ 2 ^ (s + 7) := Nat.pow_le_pow_right (by norm_num) (by omega)
      · calc (b &&& 127) <<< s % 2 ^ 64 ≤ (b &&& 127) <<< s :=
              Nat.mod_le _ _
          _ < 2 ^ (s + 7) := by
              rw [Nat.shiftLeft_eq]
              calc (b &&& 127) * 2 ^ s < 128 * 2 ^ s :=
                    (Nat.mul_lt_mul_right (Nat.two_pow_pos s)).mpr hblt
                _ = 2 ^ (s + 7) := by
                    rw [Nat.pow_add, show ((2 : Nat) ^ 7) = 128 by norm_num]
                    ring
    simp only [decodeVarintAux] at h
    by_cases hb : b &&& 128 = 0
    · rw [if_pos hb] at h
      simp only [Option.some.injEq, Prod.mk.injEq] at h
      obtain ⟨hval, hj⟩ := h
      subst hval
      subst hj
      have h1 : i + 1 - i = 1 := by omega
      rw [h1]
      simpa using hstep
    · rw [if_neg hb] at h
      by_cases hsh : 64 ≤ s + 7
      · rw [if_pos hsh] at h
        cases h
      · rw [if_neg hsh] at h
        have hij := decodeVarintAux_lt_index rest (i + 1) _ (s + 7) val j h
        have hbnd := ih (i + 1) _ (s + 7) val j hstep h
        calc val < 2 ^ (s + 7 + 7 * (j - (i + 1))) := hbnd
          _ = 2 ^ (s + 7 * (j - i)) := by
              congr 1
              omega

/-- Growth of the minimal encoding: `v < 2 ^ (7 k)` needs at most `k`
bytes. -/
theorem encode_varint_length_le :
    ∀ (k v : Nat), 1 ≤ k → v < 2 ^ (7 * k) → (encode_varint v).length ≤ k := by
  intro k
  induction k with
  | zero =>
    intro v hk
    omega
  | succ k ih =>
    intro v hk hv
    rw [encode_varint]
    by_cases h7 : v >>> 7 = 0
    · simp [h7]
    · simp only [h7, dite_false, List.length_cons]
      have hvge : 128 ≤ v := by
        rw [shiftRight7_eq_div] at h7
        rcases Nat.lt_or_ge v 128 with h | h
        · exact absurd (Nat.div_eq_of_lt h) h7
        · exact h
      have hk1 : 1 ≤ k := by
        rcases Nat.eq_zero_or_pos k with h | h
        · subst h
          norm_num at hv
          omega
        · exact h
      have hnext : v >>> 7 < 2 ^ (7 * k) := by
        rw [shiftRight7_eq_div, Nat.div_lt_iff_lt_mul (by norm_num : (0 : Nat) < 128)]
        calc v < 2 ^ (7 * (k + 1)) := hv
          _ = 2 ^ (7 * k) * 128 := by
              rw [show 7 * (k + 1) = 7 * k + 7 by omega, Nat.pow_add]
      have := ih (v >>> 7) hk1 hnext
      omega

/-- C7: `encode_varint` is the minimal base-128 encoding: the result is in
varint shape (last byte high-bit clear, prior bytes high-bit set), no
byte sequence in varint shape that decodes to `v` is shorter, and the
spec's concrete examples (0, 150, 624485, `u64::MAX`) hold. -/
theorem encode_varint_minimal :
    (∀ v : Nat, varintShape (encode_varint v)) ∧
      (∀ (v : Nat) (bs : List Nat), varintShape bs →
        decode_varint bs 0 = some (v, bs.length) →
        (encode_varint v).length ≤ bs.length) ∧
      encode_varint 0 = [0x00] ∧
      encode_varint 150 = [0x96, 0x01] ∧
      encode_varint 624485 = [0xE5, 0x8E, 0x26] ∧
      encode_varint (2 ^ 64 - 1) =
        [0xFF, 0xFF, 0xFF, 0xFF, 0xFF, 0xFF, 0xFF, 0xFF, 0xFF, 0x01] := by
  refine ⟨varintShape_encode, ?_, ?_, ?_, ?_, ?_⟩
  · intro v bs hshape hdec
    have hlen1 : 1 ≤ bs.length := by
      cases bs with
      | nil => cases hshape
      | cons b rest => simp
    have hbound : v < 2 ^ (7 * bs.length) := by
      unfold decode_varint at hdec
      rw [List.drop_zero] at hdec
      have := decodeVarintAux_lt bs 0 0 0 v bs.length (by norm_num) hdec
      simpa using this
    exact encode_varint_length_le bs.length v hlen1 hbound
  · rw [encode_varint]
    decide
  · rw [encode_varint, encode_varint]
    decide
  · rw [encode_varint, encode_varint, encode_varint]
    decide
  · rw [encode_varint, encode_varint, encode_varint, encode_varint,
      encode_varint, encode_varint, encode_varint, encode_varint,
      encode_varint, encode_varint]
    decide

theorem encode_varint_minimal_witness :
    (encode_varint 150).length ≤ ([0x96, 0x01] : List Nat).length := by
  refine encode_varint_minimal.2.1 150 [0x96, 0x01] ?_ ?_
  · show (128 : Nat) ≤ 0x96 ∧ (0x96 : Nat) < 256 ∧ varintShape [0x01]
    refine ⟨by norm_num, by norm_num, ?_⟩
    show (0x01 : Nat) < 128
    norm_num
  · decide

/-- Indexed element of a dropped list. -/
theorem getD_drop (l : List Nat) (n m : Nat) :
    (l.drop n).getD m 0 = l.getD (n + m) 0 := by
  simp [List.getD_eq_getElem?_getD, List.getElem?_drop]

/-- The varint decode loop fails exactly when no terminating byte occurs
among the bytes it is allowed to consume.  `m` counts the 7-bit groups
already consumed (the shift is `7 * m`). -/
theorem decodeVarintAux_none_iff :
    ∀ (l : List Nat) (i R m : Nat), m ≤ 9 →
      (decodeVarintAux l i R (7 * m) = none ↔
        ¬ ∃ k, k < l.length ∧ k + m < 10 ∧
          (∀ j, j < k → l.getD j 0 &&& 128 ≠ 0) ∧ l.getD k 0 &&& 128 = 0) := by
  intro l
  induction l with
  | nil =>
    intro i R m hm
    simp [decodeVarintAux]
  | cons b rest ih =>
    intro i R m hm
    simp only [decodeVarintAux]
    by_cases hb : b &&& 128 = 0
    · rw [if_pos hb]
      apply iff_of_false
      · simp
      · intro hn
        exact hn ⟨0, by simp, by omega, by omega, by simpa using hb⟩
    · rw [if_neg hb]
      by_cases hm9 : m = 9
      · subst hm9
        rw [if_pos (by norm_num)]
        apply iff_of_true rfl
        rintro ⟨k, hk1, hk2, hk3, hk4⟩
        have hk0 : k = 0 := by omega
        subst hk0
        simp only [List.getD_cons_zero] at hk4
        exact hb hk4
      · rw [if_neg (by omega), show 7 * m + 7 = 7 * (m + 1) by omega,
          ih (i + 1) _ (m + 1) (by omega)]
        apply not_congr
        constructor
        · rintro ⟨k, hk1, hk2, hk3, hk4⟩
          refine ⟨k + 1, by simpa using hk1, by omega, ?_, by simpa using hk4⟩
          intro j hj
          cases j with
          | zero => simpa using hb
          | succ j' => simpa using hk3 j' (by omega)
        · rintro ⟨k, hk1, hk2, hk3, hk4⟩
          cases k with
          | zero =>
            simp only [List.getD_cons_zero] at hk4
            exact absurd hk4 hb
          | succ k' =>
            refine ⟨k', by simpa using hk1, by omega, ?_, by simpa using hk4⟩
            intro j hj
            have := hk3 (j + 1) (by omega)
            simpa using this

/-- C8: `decode_varint` returns `none` exactly when there is no index `i`
within 10 positions of `offset` and inside the buffer whose byte has the
high bit clear while every byte from `offset` up to it has the high bit set
(so a varint terminating on its 10th byte still succeeds). -/
theorem decode_varint_none_iff (bytes : List Nat) (offset : Nat)
    (_hbytes : ∀ b ∈ bytes, b < 256) :
    (decode_varint bytes offset = none ↔
      ¬ ∃ i, offset ≤ i ∧ i < offset + 10 ∧ i < bytes.length ∧
        (∀ j, offset ≤ j → j < i → bytes.getD j 0 &&& 128 ≠ 0) ∧
        bytes.getD i 0 &&& 128 = 0) := by
  unfold decode_varint
  have h0 := decodeVarintAux_none_iff (bytes.drop offset) offset 0 0 (by norm_num)
  simp only [Nat.mul_zero] at h0
  rw [h0]
  apply not_congr
  constructor
  · rintro ⟨k, hk1, hk2, hk3, hk4⟩
    rw [List.length_drop] at hk1
    refine ⟨offset + k, by omega, by omega, by omega, ?_, ?_⟩
    · intro j hj1 hj2
      have := hk3 (j - offset) (by omega)
      rw [getD_drop, Nat.add_sub_cancel' hj1] at this
      exact this
    · rw [getD_drop] at hk4
      exact hk4
  · rintro ⟨i, hi1, hi2, hi3, hi4, hi5⟩
    refine ⟨i - offset, ?_, by omega, ?_, ?_⟩
    · rw [List.length_drop]
      omega
    · intro j hj
      rw [getD_drop]
      exact hi4 (offset + j) (by omega) (by omega)
    · rw [getD_drop, Nat.add_sub_cancel' hi1]
      exact hi5

theorem decode_varint_none_iff_witness :
    (∀ b ∈ ([0x80, 0x80] : List Nat), b < 256) ∧
      (decode_varint [0x80, 0x80] 0 = none ↔
        ¬ ∃ i, 0 ≤ i ∧ i < 0 + 10 ∧ i < ([0x80, 0x80] : List Nat).length ∧
          (∀ j, 0 ≤ j → j < i →
            ([0x80, 0x80] : List Nat).getD j 0 &&& 128 ≠ 0) ∧
          ([0x80, 0x80] : List Nat).getD i 0 &&& 128 = 0) :=
  ⟨by decide, decode_varint_none_iff [0x80, 0x80] 0 (by decide)⟩

/-! ### Frame lemmas -/

/-- The tag value of a frame. -/
def Frame.tag (fr : Frame) : Nat :=
  (fr.fieldNum <<< 3) ||| fr.wireType

/-- The length-varint bytes of a frame (empty except for wire type 2). -/
def Frame.lenBytes : Frame → List Nat
  | .lenF _ p => encode_varint p.length
  | _ => []

theorem Frame.wireType_lt (fr : Frame) : fr.wireType < 8 := by
  cases fr <;> simp [Frame.wireType]

theorem Frame.fieldNum_lt {fr : Frame} (h : fr.WF) : fr.fieldNum < 2 ^ 61 := by
  cases fr <;> exact h.1

theorem Frame.tag_eq (fr : Frame) : fr.tag = 8 * fr.fieldNum + fr.wireType := by
  unfold Frame.tag
  rw [Nat.lor_comm, lor_shiftLeft_eq_add fr.fieldNum 3 (by
    have := fr.wireType_lt
    omega)]
  ring

theorem Frame.tag_lt {fr : Frame} (h : fr.WF) : fr.tag < 2 ^ 64 := by
  rw [fr.tag_eq]
  have h1 := Frame.fieldNum_lt h
  have h2 := fr.wireType_lt
  have e1 : (2 : Nat) ^ 61 = 2305843009213693952 := by norm_num
  have e2 : (2 : Nat) ^ 64 = 18446744073709551616 := by norm_num
  omega

theorem Frame.tag_shiftRight (fr : Frame) : fr.tag >>> 3 = fr.fieldNum := by
  rw [fr.tag_eq, shiftRight3_eq_div]
  have := fr.wireType_lt
  omega

theorem Frame.tag_and7 (fr : Frame) : fr.tag &&& 7 = fr.wireType := by
  rw [fr.tag_eq, and7_eq_mod]
  have := fr.wireType_lt
  omega

theorem Frame.bytes_eq (fr : Frame) :
    fr.bytes = encode_varint fr.tag ++ (fr.lenBytes ++ fr.valueBytes) := by
  cases fr <;>
    simp [Frame.bytes, Frame.tag, Frame.lenBytes, Frame.valueBytes,
      Frame.fieldNum, Frame.wireType, List.append_assoc]

theorem Frame.bytes_length_pos (fr : Frame) : 0 < fr.bytes.length := by
  rw [fr.bytes_eq]
  have := encode_varint_length_pos fr.tag
  simp only [List.length_append]
  omega

theorem messageBytes_nil : messageBytes [] = [] := rfl

theorem messageBytes_cons (fr : Frame) (rest : List Frame) :
    messageBytes (fr :: rest) = fr.bytes ++ messageBytes rest := by
  simp [messageBytes]

/-- Slicing out the middle chunk of a three-way append. -/
theorem slice_append (A B C : List Nat) :
    slice (A ++ (B ++ C)) A.length (A.length + B.length) = B := by
  unfold slice
  rw [List.drop_left, Nat.add_sub_cancel_left, List.take_left]

/-- Scanning a well-formed message laid out after an arbitrary prelude finds
the first frame with the target field number (main induction for C5). -/
theorem extractLoop_messageBytes :
    ∀ (frames : List Frame) (t : Nat) (pre : List Nat) (fuel : Nat),
      (∀ g ∈ frames, g.WF) → frames.length < fuel →
      extractLoop (pre ++ messageBytes frames) t fuel pre.length =
        (frames.find? (fun g => g.fieldNum == t)).map Frame.valueBytes := by
  intro frames
  induction frames with
  | nil =>
    intro t pre fuel hwf hfuel
    obtain ⟨f, rfl⟩ : ∃ f, fuel = f + 1 := ⟨fuel - 1, by omega⟩
    simp [messageBytes_nil, extractLoop]
  | cons fr rest ih =>
    intro t pre fuel hwf hfuel
    obtain ⟨f, rfl⟩ : ∃ f, fuel = f + 1 := ⟨fuel - 1, by omega⟩
    have hwfr : fr.WF := hwf fr (by simp)
    have hwfrest : ∀ g ∈ rest, g.WF := fun g hg => hwf g (by simp [hg])
    have hfuel' : rest.length < f := by
      simp only [List.length_cons] at hfuel
      omega
    have htaglt := Frame.tag_lt hwfr
    have hsplit1 : pre ++ messageBytes (fr :: rest) =
        pre ++ (encode_varint fr.tag ++
          (fr.lenBytes ++ (fr.valueBytes ++ messageBytes rest))) := by
      rw [messageBytes_cons, fr.bytes_eq]
      simp [List.append_assoc]
    rw [hsplit1]
    have hdec := decode_varint_append pre fr.tag
      (fr.lenBytes ++ (fr.valueBytes ++ messageBytes rest)) htaglt
    have hguard : pre.length <
        (pre ++ (encode_varint fr.tag ++
          (fr.lenBytes ++ (fr.valueBytes ++ messageBytes rest)))).length := by
      simp only [List.length_append]
      have := encode_varint_length_pos fr.tag
      omega
    simp only [extractLoop, if_pos hguard, hdec, Frame.tag_shiftRight,
      Frame.tag_and7]
    by_cases hft : fr.fieldNum = t
    · rw [if_pos hft, List.find?_cons_of_pos _ (by simp [hft])]
      cases fr with
      | varintF fv vv =>
        have hvv : vv < 2 ^ 64 := hwfr.2
        simp only [Frame.lenBytes, Frame.valueBytes, Frame.wireType,
          List.nil_append]
        have h2 := decode_varint_append
          (pre ++ encode_varint (Frame.varintF fv vv).tag) vv
          (messageBytes rest) hvv
        simp only [List.append_assoc, List.length_append] at h2
        rw [h2, Option.map_some']
        have hsl := slice_append (pre ++ encode_varint (Frame.varintF fv vv).tag)
          (encode_varint vv) (messageBytes rest)
        simp only [List.append_assoc, List.length_append] at hsl
        rw [hsl, Option.map_some']
        simp [Frame.valueBytes]
      | fixed64F fv bs =>
        have hbs : bs.length = 8 := hwfr.2
        simp only [Frame.lenBytes, Frame.valueBytes, Frame.wireType,
          List.nil_append]
        have hle : pre.length + (encode_varint (Frame.fixed64F fv bs).tag).length + 8 ≤
            (pre ++ (encode_varint (Frame.fixed64F fv bs).tag ++
              (bs ++ messageBytes rest))).length := by
          simp only [List.length_append]
          omega
        rw [decode_double, if_pos hle, Option.map_some']
        have hsl := slice_append (pre ++ encode_varint (Frame.fixed64F fv bs).tag)
          bs (messageBytes rest)
        simp only [List.append_assoc, List.length_append] at hsl
        rw [hbs] at hsl
        rw [hsl, Option.map_some']
        simp [Frame.valueBytes]
      | lenF fv pl =>
        have hpl : pl.length < 2 ^ 64 := hwfr.2
        simp only [Frame.lenBytes, Frame.valueBytes, Frame.wireType]
        have h2 := decode_varint_append
          (pre ++ encode_varint (Frame.lenF fv pl).tag) pl.length
          (pl ++ messageBytes rest) hpl
        simp only [List.append_assoc, List.length_append] at h2
        simp only [handle_length_delimited, h2]
        have hnotgt : ¬ (pre.length + (encode_varint (Frame.lenF fv pl).tag).length +
            (encode_varint pl.length).length + pl.length >
            (pre ++ (encode_varint (Frame.lenF fv pl).tag ++
              (encode_varint pl.length ++ (pl ++ messageBytes rest)))).length) := by
          simp only [List.length_append]
          omega
        rw [if_neg hnotgt]
        have hsl := slice_append
          ((pre ++ encode_varint (Frame.lenF fv pl).tag) ++ encode_varint pl.length)
          pl (messageBytes rest)
        simp only [List.append_assoc, List.length_append] at hsl
        simp only [← Nat.add_assoc] at hsl
        rw [hsl, Option.map_some']
        simp [Frame.valueBytes]
      | fixed32F fv bs =>
        have hbs : bs.length = 4 := hwfr.2
        simp only [Frame.lenBytes, Frame.valueBytes, Frame.wireType,
          List.nil_append]
        have hle : pre.length + (encode_varint (Frame.fixed32F fv bs).tag).length + 4 ≤
            (pre ++ (encode_varint (Frame.fixed32F fv bs).tag ++
              (bs ++ messageBytes rest))).length := by
          simp only [List.length_append]
          omega
        rw [decode_float, if_pos hle, Option.map_some']
        have hsl := slice_append (pre ++ encode_varint (Frame.fixed32F fv bs).tag)
          bs (messageBytes rest)
        simp only [List.append_assoc, List.length_append] at hsl
        rw [hbs] at hsl
        rw [hsl, Option.map_some']
        simp [Frame.valueBytes]
    · rw [if_neg hft, List.find?_cons_of_neg _ (by simp [hft])]
      cases fr with
      | varintF fv vv =>
        have hvv : vv < 2 ^ 64 := hwfr.2
        simp only [Frame.lenBytes, Frame.valueBytes, Frame.wireType,
          List.nil_append]
        have h2 := decode_varint_append
          (pre ++ encode_varint (Frame.varintF fv vv).tag) vv
          (messageBytes rest) hvv
        simp only [List.append_assoc, List.length_append] at h2
        rw [skip_field, h2]
        have hre : pre ++ (encode_varint (Frame.varintF fv vv).tag ++
            (encode_varint vv ++ messageBytes rest)) =
            (pre ++ Frame.bytes (Frame.varintF fv vv)) ++ messageBytes rest := by
          rw [Frame.bytes_eq]
          simp [Frame.lenBytes, Frame.valueBytes, List.append_assoc]
        have hlen : pre.length + (encode_varint (Frame.varintF fv vv).tag).length +
            (encode_varint vv).length =
            (pre ++ Frame.bytes (Frame.varintF fv vv)).length := by
          rw [Frame.bytes_eq]
          simp [Frame.lenBytes, Frame.valueBytes, List.length_append]
          omega
        simp only [Option.map_some']
        rw [hre, hlen]
        exact ih t (pre ++ Frame.bytes (Frame.varintF fv vv)) f hwfrest hfuel'
      | fixed64F fv bs =>
        have hbs : bs.length = 8 := hwfr.2
        simp only [Frame.lenBytes, Frame.valueBytes, Frame.wireType,
          List.nil_append]
        rw [skip_field]
        have hre : pre ++ (encode_varint (Frame.fixed64F fv bs).tag ++
            (bs ++ messageBytes rest)) =
            (pre ++ Frame.bytes (Frame.fixed64F fv bs)) ++ messageBytes rest := by
          rw [Frame.bytes_eq]
          simp [Frame.lenBytes, Frame.valueBytes, List.append_assoc]
        have hlen : pre.length + (encode_varint (Frame.fixed64F fv bs).tag).length + 8 =
            (pre ++ Frame.bytes (Frame.fixed64F fv bs)).length := by
          rw [Frame.bytes_eq]
          simp [Frame.lenBytes, Frame.valueBytes, List.length_append]
          omega
        rw [hre, hlen]
        exact ih t (pre ++ Frame.bytes (Frame.fixed64F fv bs)) f hwfrest hfuel'
      | lenF fv pl =>
        have hpl : pl.length < 2 ^ 64 := hwfr.2
        simp only [Frame.lenBytes, Frame.valueBytes, Frame.wireType]
        have h2 := decode_varint_append
          (pre ++ encode_varint (Frame.lenF fv pl).tag) pl.length
          (pl ++ messageBytes rest) hpl
        simp only [List.append_assoc, List.length_append] at h2
        simp only [skip_field, h2]
        have hre : pre ++ (encode_varint (Frame.lenF fv pl).tag ++
            (encode_varint pl.length ++ (pl ++ messageBytes rest))) =
            (pre ++ Frame.bytes (Frame.lenF fv pl)) ++ messageBytes rest := by
          rw [Frame.bytes_eq]
          simp [Frame.lenBytes, Frame.valueBytes, List.append_assoc]
        have hlen : pre.length + (encode_varint (Frame.lenF fv pl).tag).length +
            (encode_varint pl.length).length + pl.length =
            (pre ++ Frame.bytes (Frame.lenF fv pl)).length := by
          rw [Frame.bytes_eq]
          simp [Frame.lenBytes, Frame.valueBytes, List.length_append]
          omega
        rw [hre, hlen]
        exact ih t (pre ++ Frame.bytes (Frame.lenF fv pl)) f hwfrest hfuel'
      | fixed32F fv bs =>
        have hbs : bs.length = 4 := hwfr.2
        simp only [Frame.lenBytes, Frame.valueBytes, Frame.wireType,
          List.nil_append]
        rw [skip_field]
        have hre : pre ++ (encode_varint (Frame.fixed32F fv bs).tag ++
            (bs ++ messageBytes rest)) =
            (pre ++ Frame.bytes (Frame.fixed32F fv bs)) ++ messageBytes rest := by
          rw [Frame.bytes_eq]
          simp [Frame.lenBytes, Frame.valueBytes, List.append_assoc]
        have hlen : pre.length + (encode_varint (Frame.fixed32F fv bs).tag).length + 4 =
            (pre ++ Frame.bytes (Frame.fixed32F fv bs)).length := by
          rw [Frame.bytes_eq]
          simp [Frame.lenBytes, Frame.valueBytes, List.length_append]
          omega
        rw [hre, hlen]
        exact ih t (pre ++ Frame.bytes (Frame.fixed32F fv bs)) f hwfrest hfuel'

theorem messageBytes_length_ge (frames : List Frame) :
    frames.length ≤ (messageBytes frames).length := by
  induction frames with
  | nil => simp [messageBytes_nil]
  | cons fr rest ih =>
    rw [messageBytes_cons]
    simp only [List.length_append, List.length_cons]
    have := fr.bytes_length_pos
    omega

/-- C5: on a well-formed buffer, `extract_field_by_tag` returns the value
bytes of the first frame with the target field number (the varint's own
bytes for wire type 0, the 8 raw bytes for wire type 1, the L payload bytes
for wire type 2, the 4 raw bytes for wire type 5), and `none` when no frame
has the target field number — in particular on the empty buffer. -/
theorem extract_field_by_tag_correct (frames : List Frame) (t : Nat)
    (hwf : ∀ g ∈ frames, g.WF) :
    extract_field_by_tag (messageBytes frames) t =
      (frames.find? (fun g => g.fieldNum == t)).map Frame.valueBytes := by
  unfold extract_field_by_tag
  have hlen : frames.length < (messageBytes frames).length + 1 := by
    have := messageBytes_length_ge frames
    omega
  have := extractLoop_messageBytes frames t []
    ((messageBytes frames).length + 1) hwf hlen
  simpa using this

theorem extract_field_by_tag_correct_witness :
    extract_field_by_tag
        (messageBytes [Frame.varintF 1 1,
          Frame.lenF 2 [116, 101, 115, 116, 105, 110, 103]]) 2 =
      (([Frame.varintF 1 1,
          Frame.lenF 2 [116, 101, 115, 116, 105, 110, 103]] :
            List Frame).find? (fun g => g.fieldNum == 2)).map Frame.valueBytes :=
  extract_field_by_tag_correct _ 2 (by
    intro g hg
    simp only [List.mem_cons, List.not_mem_nil, or_false] at hg
    rcases hg with rfl | rfl
    · exact ⟨by norm_num, by norm_num⟩
    · exact ⟨by norm_num, by norm_num⟩)

/-! ### C9: create_header refines the spec header synthesizer -/

theorem headerVarintLoop_eq_encode (n : Nat) :
    headerVarintLoop n = encode_varint n := by
  induction n using Nat.strong_induction_on with
  | _ n ih =>
    rw [headerVarintLoop, encode_varint]
    by_cases h : n < 128
    · have h7 : n >>> 7 = 0 := by
        rw [shiftRight7_eq_div]
        exact Nat.div_eq_of_lt h
      have h127 : n &&& 127 = n := by
        rw [and127_eq_mod]
        omega
      simp [h, h7, h127]
    · have h7 : ¬ n >>> 7 = 0 := by
        rw [shiftRight7_eq_div]
        intro h0
        have : n < 128 := by
          rcases Nat.lt_or_ge n 128 with hlt | hge
          · exact hlt
          · have : 1 ≤ n / 128 := (Nat.one_le_div_iff (by norm_num)).mpr hge
            omega
        exact h this
      have hlt : n >>> 7 < n := by
        rw [shiftRight7_eq_div]
        exact Nat.div_lt_self (by omega) (by norm_num)
      simp only [h, if_false, h7, dite_false]
      rw [ih (n >>> 7) hlt]

/-- C9: `create_header` equals the spec's header synthesizer: the varint
encoding of `(tag_number << 3) | variant` (in `u64` arithmetic), followed,
exactly when the variant is length-delimited, by the varint encoding of the
message length — i.e. the inline loops are `encode_varint`. -/
theorem create_header_refines (tag_number variant : Nat) (m : List Nat) :
    create_header tag_number variant m = make_header_spec tag_number variant m := by
  unfold create_header make_header_spec
  simp only [headerVarintLoop_eq_encode]

/-! ### C1, C2, C3: concrete evaluations at the failing inputs -/

/-- C3 failing input: a length-delimited frame of field 1 with a 128-byte
value (two-byte length varint) followed by a varint frame of field 2.  The
scan advances `offset += value.len() + 1`, landing one byte short of the
next frame, so the following target frame (2, [42]) is lost: the result
has only the first pair, not `[(1, …), (2, [42])]`. -/
theorem extract_multiple_multibyte_length_failing :
    extract_multiple_fields_by_tag
        ([10, 128, 1] ++ List.replicate 128 97 ++ [16, 42]) [1, 2] =
      [(1, List.replicate 128 97)] := by
  decide

/-- C1 failing input: replacing the single length-delimited frame of field 1
whose value is 128 bytes long (two-byte length varint).  The suffix is taken
from `tag end + L + 1` instead of `tag end + 2 + L`, so the last byte of the
old value (97) survives into the result: the buffer becomes `[8, 1, 97]`
rather than `[8, 1]`, while the returned old value is correct. -/
theorem replace_field_with_multibyte_length_failing :
    replace_field_with ([10, 128, 1] ++ List.replicate 128 97) 1 [8, 1] =
      (some (List.replicate 128 97), [8, 1, 97]) := by
  decide

/-- C2 failing input: the buffer `[0x0B]` holds a frame with field number 1
and unsupported wire type 3.  `replace_field_with` returns `none` and yet
still splices: the buffer becomes `[66]` (the replacement), not `[11]`. -/
theorem replace_field_with_malformed_match_mutates :
    replace_field_with [11] 1 [66] = (none, [66]) := by
  decide

/-! ### C4: malformed frames during extract_multiple_fields_by_tag -/

/-- The frame starting at `offset` is malformed: its tag varint fails to
decode, or its wire type is unsupported, or its value fails to decode (the
conditions under which the per-wire-type handlers of
`extract_multiple_fields_by_tag` return no value). -/
def malformedFrameAt (msg : List Nat) (offset : Nat) : Prop :=
  match decode_varint msg offset with
  | none => True
  | some (tag, newOffset) =>
    match tag &&& 7 with
    | 0 => handle_varint msg newOffset = none
    | 1 => decode_double msg newOffset = none
    | 2 => handle_length_delimited msg newOffset = none
    | 5 => decode_float msg newOffset = none
    | _ => True

/-- C4 counterexample: in `[0x0B, 0x10, 0x2A]` the frame at offset 0 has
field number 1 (in the target set) and unsupported wire type 3 — a
malformed frame — yet the scan does not terminate: it continues past the
tag and still appends the following frame `(2, [42])`, so the result is not
the empty list the claim requires. -/
theorem extract_multiple_continues_after_malformed_target :
    malformedFrameAt [11, 16, 42] 0 ∧
      extract_multiple_fields_by_tag [11, 16, 42] [1, 2] = [(2, [42])] ∧
      extract_multiple_fields_by_tag [11, 16, 42] [1, 2] ≠ [] := by
  refine ⟨trivial, by decide, by decide⟩

/-- The multi-extraction loop at or past the end of the buffer yields no
fields, with any fuel. -/
theorem extractMultipleLoop_oob (msg : List Nat) (targets : List Nat)
    (fuel offset : Nat) (h : ¬ offset < msg.length) :
    extractMultipleLoop msg targets fuel offset = [] := by
  cases fuel with
  | zero => rfl
  | succ f => simp [extractMultipleLoop, h]

/-- C4 amended: when the frame at the current offset is malformed, the scan
of `extract_multiple_fields_by_tag` terminates (yielding no further
entries) only if the tag varint fails to decode or the frame's field number
is not in the target set; a malformed frame whose field number is in the
target set contributes no entry, and the scan continues at the offset just
past its tag varint. -/
theorem extractMultipleLoop_malformed_frame (msg : List Nat)
    (targets : List Nat) (offset fuel : Nat)
    (hoff : offset < msg.length) (hmal : malformedFrameAt msg offset) :
    extractMultipleLoop msg targets (fuel + 1) offset =
      (match decode_varint msg offset with
       | none => []
       | some (tag, newOffset) =>
         if targets.contains (tag >>> 3) then
           extractMultipleLoop msg targets fuel newOffset
         else []) := by
  cases hd : decode_varint msg offset with
  | none => simp only [extractMultipleLoop, if_pos hoff, hd]
  | some p =>
    obtain ⟨tag, newOffset⟩ := p
    unfold malformedFrameAt at hmal
    rw [hd] at hmal
    simp only at hmal
    have hw8 : tag &&& 7 < 8 := by
      rw [and7_eq_mod]
      omega
    simp only [extractMultipleLoop, if_pos hoff, hd]
    by_cases hc : targets.contains (tag >>> 3)
    · rw [if_pos hc, if_pos hc]
      interval_cases hw : (tag &&& 7)
      · have hm : handle_varint msg newOffset = none := by simpa using hmal
        simp only [hm]
      · have hm : decode_double msg newOffset = none := by simpa using hmal
        simp only [hm]
      · have hm : handle_length_delimited msg newOffset = none := by
          simpa using hmal
        simp only [hm]
      · rfl
      · rfl
      · have hm : decode_float msg newOffset = none := by simpa using hmal
        simp only [hm]
      · rfl
      · rfl
    · rw [if_neg hc, if_neg hc]
      interval_cases hw : (tag &&& 7)
      · have hm : (decode_varint msg newOffset).map (fun p => p.2) = none := by
          simpa [handle_varint] using hmal
        simp only [skip_field, hm]
      · have hm : decode_double msg newOffset = none := by simpa using hmal
        simp only [skip_field]
        have hgt : ¬ newOffset + 8 < msg.length := by
          simp only [decode_double] at hm
          by_cases hle : newOffset + 8 ≤ msg.length
          · rw [if_pos hle] at hm
            cases hm
          · omega
        rw [extractMultipleLoop_oob msg targets fuel (newOffset + 8) hgt]
      · have hm : handle_length_delimited msg newOffset = none := by
          simpa using hmal
        unfold handle_length_delimited at hm
        cases hd2 : decode_varint msg newOffset with
        | none => simp only [skip_field, hd2]
        | some q =>
          obtain ⟨len, off2⟩ := q
          rw [hd2] at hm
          simp only at hm
          have hgt : off2 + len > msg.length := by
            by_cases hgt2 : off2 + len > msg.length
            · exact hgt2
            · rw [if_neg hgt2] at hm
              cases hm
          simp only [skip_field, hd2]
          exact extractMultipleLoop_oob msg targets fuel (off2 + len) (by omega)
      · rfl
      · rfl
      · have hm : decode_float msg newOffset = none := by simpa using hmal
        simp only [skip_field]
        have hgt : ¬ newOffset + 4 < msg.length := by
          simp only [decode_float] at hm
          by_cases hle : newOffset + 4 ≤ msg.length
          · rw [if_pos hle] at hm
            cases hm
          · omega
        rw [extractMultipleLoop_oob msg targets fuel (newOffset + 4) hgt]
      · rfl
      · rfl

theorem extractMultipleLoop_malformed_frame_witness :
    extractMultipleLoop [11, 16, 42] [1, 2] 2 0 =
      (match decode_varint [11, 16, 42] 0 with
       | none => []
       | some (tag, newOffset) =>
         if ([1, 2] : List Nat).contains (tag >>> 3) then
           extractMultipleLoop [11, 16, 42] [1, 2] 1 newOffset
         else []) :=
  extractMultipleLoop_malformed_frame [11, 16, 42] [1, 2] 0 1
    (by decide) trivial

end Rustwire
